import Mathlib

/-!
Verification of core Array/JSON/inline-cache/arithmetic routines of a
QuickJS-based JavaScript engine, via a shallow embedding of the C source
(`core/builtins/js-array.c`, `core/builtins/js-json.c`, `core/ic.h`,
`anode-ext.c`) into Lean.

Machine integers are modelled as `Int`/`Nat` with explicit wrap-around where
the C code relies on it.  Heap values are modelled by the inductive `JSVal`;
floating-point payloads only ever hold exact integer values in the fragments
verified here (sums of two int32 values are exactly representable in an IEEE
double), so the `vfloat` payload is an `Int`.
-/

set_option maxHeartbeats 1000000

namespace QuickJS

/-- Model of a tagged `JSValue`.  `vref` is a heap object reference
(pointer identity modelled by a numeric id); `vfloat` is a float64-tagged
number whose payload is exact in the verified fragments. -/
inductive JSVal where
  | vundef
  | vnull
  | vbool (b : Bool)
  | vint (n : Int)
  | vfloat (n : Int)
  | vstr (s : List Char)
  | vref (id : Nat)
deriving DecidableEq, Repr

/-! ## C10: `anode_js_add_any` on two int-tagged operands (`anode-ext.c`) -/

/-- Wrap-around 32-bit signed addition result, as the C expression
`int32_t sum = JS_VALUE_GET_INT(x) + JS_VALUE_GET_INT(y)` computes it. -/
def wrap32 (n : Int) : Int := (n + 2 ^ 31) % 2 ^ 32 - 2 ^ 31

/-- Modelled from the spec: `JS_NewInt32` (external, quickjs.h) creates an
int-tagged immediate value. -/
def JS_NewInt32 (n : Int) : JSVal := .vint n

/-- Modelled from the spec: `JS_NewFloat64` (external, quickjs.h) creates a
float64-tagged immediate value.  The payload is exact here because every
double produced in the verified fragment is a sum of two int32 values. -/
def JS_NewFloat64 (n : Int) : JSVal := .vfloat n

/-- The int/int branch of `anode_js_add_any` (anode-ext.c lines 28-37):
compute the wrapped 32-bit sum; the test `(sum ^ x) >= 0` holds exactly when
`sum` and `x` have the same sign bit, modelled as `(sum < 0) = (x < 0)`.
On a kept sign the int32 sum is returned, otherwise the sum is recomputed
in double precision `(double)x + (double)y`, which is exact for int32
operands. -/
def anode_js_add_any_int (x y : Int) : JSVal :=
  let sum := wrap32 (x + y)
  if (decide (sum < 0)) = (decide (x < 0)) then
    JS_NewInt32 sum
  else
    JS_NewFloat64 (x + y)

/-- Numeric value denoted by an int- or float-tagged value. -/
def numVal : JSVal → Int
  | .vint n => n
  | .vfloat n => n
  | _ => 0

lemma wrap32_eq_self {n : Int} (h1 : -2 ^ 31 ≤ n) (h2 : n < 2 ^ 31) :
    wrap32 n = n := by
  unfold wrap32
  omega

lemma wrap32_of_big {n : Int} (h1 : 2 ^ 31 ≤ n) (h2 : n < 2 ^ 32) :
    wrap32 n = n - 2 ^ 32 := by
  unfold wrap32
  omega

lemma wrap32_of_small {n : Int} (h1 : -2 ^ 32 ≤ n) (h2 : n < -2 ^ 31) :
    wrap32 n = n + 2 ^ 32 := by
  unfold wrap32
  omega

/-- C10: for int-tagged operands, `anode_js_add_any` returns a value
numerically equal to the exact mathematical sum, never a wrapped int32:
whenever the wrapped 32-bit sum keeps the sign of `x` it actually did not
overflow, and otherwise the exact sum is returned as a float64. -/
theorem anode_js_add_any_int_exact (x y : Int)
    (hx1 : -2 ^ 31 ≤ x) (hx2 : x < 2 ^ 31)
    (hy1 : -2 ^ 31 ≤ y) (hy2 : y < 2 ^ 31) :
    numVal (anode_js_add_any_int x y) = x + y := by
  show numVal (if decide (wrap32 (x + y) < 0) = decide (x < 0) then
      JS_NewInt32 (wrap32 (x + y)) else JS_NewFloat64 (x + y)) = x + y
  by_cases hc : decide (wrap32 (x + y) < 0) = decide (x < 0)
  · rw [if_pos hc]
    simp only [JS_NewInt32, numVal]
    simp only [decide_eq_decide] at hc
    by_cases hbig : 2 ^ 31 ≤ x + y
    · have hw := wrap32_of_big hbig (by omega)
      rw [hw] at hc ⊢
      omega
    · by_cases hsmall : x + y < -2 ^ 31
      · have hw := wrap32_of_small (by omega) hsmall
        rw [hw] at hc ⊢
        omega
      · exact wrap32_eq_self (by omega) (by omega)
  · rw [if_neg hc]
    simp [JS_NewFloat64, numVal]

/-- Witness for C10 at a concrete overflowing input. -/
theorem anode_js_add_any_int_exact_witness :
    numVal (anode_js_add_any_int (2 ^ 31 - 1) 1) = 2 ^ 31 :=
  anode_js_add_any_int_exact (2 ^ 31 - 1) 1 (by norm_num) (by norm_num)
    (by norm_num) (by norm_num)

/-! ## C7: `get_ic_prop_offset` (core/ic.h lines 40-62)

The ring buffer of an inline-cache slot holds `IC_CACHE_ITEM_CAPACITY`
(shape, prop_offset) pairs; the capacity constant is not under `src/`, so the
buffer is modelled as a list whose length is the capacity.  Shape pointers
are modelled by numeric ids (pointer identity is the sole equality key). -/

/-- One `(shape, prop_offset)` ring entry (`InlineCacheRingItem`). -/
structure InlineCacheRingItem where
  shape : Nat
  prop_offset : Nat
deriving DecidableEq, Repr

/-- An inline-cache ring slot: a ring `buffer` together with the last-hit
`index` (`InlineCacheRingSlot`). -/
structure InlineCacheRingSlot where
  buffer : List InlineCacheRingItem
  index : Nat
deriving DecidableEq, Repr

/-- The probe loop of `get_ic_prop_offset`: starting at position `i`, probe
successive positions `(i+1) % capacity`, ... .  The source loop stops when
the incremented position wraps back to the start index, i.e. after exactly
`capacity` probes, modelled by the fuel argument (initially the capacity). -/
def icLookupLoop (buffer : List InlineCacheRingItem) (shape : Nat) :
    Nat → Nat → Option (Nat × Nat)
  | _, 0 => none
  | i, fuel + 1 =>
    match buffer.get? i with
    | some item =>
      if item.shape = shape then some (i, item.prop_offset)
      else icLookupLoop buffer shape ((i + 1) % buffer.length) fuel
    | none => none

/-- `get_ic_prop_offset`: probe the ring starting at the slot's last-hit
index; on a hit record the hit position as the new index and return the
stored property offset; on a full-ring miss return the sentinel `-1`
leaving the slot unchanged. -/
def get_ic_prop_offset (cr : InlineCacheRingSlot) (shape : Nat) :
    Int × InlineCacheRingSlot :=
  match icLookupLoop cr.buffer shape cr.index cr.buffer.length with
  | some (i, off) => ((off : Int), { cr with index := i })
  | none => (-1, cr)

lemma ic_mod_shift (L i j : Nat) :
    ((i + 1) % L + j) % L = (i + (j + 1)) % L := by
  rw [Nat.mod_add_mod]
  congr 1
  omega

lemma icLookupLoop_none_iff (buffer : List InlineCacheRingItem) (shape : Nat) :
    ∀ (fuel i : Nat), i < buffer.length →
      (icLookupLoop buffer shape i fuel = none ↔
        ∀ j < fuel, ∀ item, buffer.get? ((i + j) % buffer.length) = some item →
          item.shape ≠ shape) := by
  intro fuel
  induction fuel with
  | zero => intro i _; simp [icLookupLoop]
  | succ n ih =>
    intro i hi
    have hlen : 0 < buffer.length := Nat.lt_of_le_of_lt (Nat.zero_le i) hi
    rcases hitem : buffer.get? i with _ | item
    · exact absurd (List.get?_eq_none.mp hitem) (by omega)
    · simp only [icLookupLoop, hitem]
      by_cases hs : item.shape = shape
      · simp only [if_pos hs]
        constructor
        · intro h; exact absurd h (by simp)
        · intro h
          exfalso
          refine h 0 (Nat.succ_pos n) item ?_ hs
          rwa [Nat.add_zero, Nat.mod_eq_of_lt hi]
      · simp only [if_neg hs]
        rw [ih ((i + 1) % buffer.length) (Nat.mod_lt _ hlen)]
        constructor
        · intro h j hj it hit
          rcases Nat.eq_zero_or_pos j with rfl | hjpos
          · rw [Nat.add_zero, Nat.mod_eq_of_lt hi, hitem] at hit
            cases hit
            exact hs
          · obtain ⟨j', rfl⟩ : ∃ j', j = j' + 1 := ⟨j - 1, by omega⟩
            refine h j' (by omega) it ?_
            rwa [ic_mod_shift]
        · intro h j hj it hit
          refine h (j + 1) (by omega) it ?_
          rwa [← ic_mod_shift]

lemma icLookupLoop_first_hit (buffer : List InlineCacheRingItem) (shape : Nat) :
    ∀ (fuel i : Nat), i < buffer.length →
      ∀ k < fuel, ∀ item,
        buffer.get? ((i + k) % buffer.length) = some item →
        item.shape = shape →
        (∀ j < k, ∀ it, buffer.get? ((i + j) % buffer.length) = some it →
          it.shape ≠ shape) →
        icLookupLoop buffer shape i fuel =
          some ((i + k) % buffer.length, item.prop_offset) := by
  intro fuel
  induction fuel with
  | zero => intro i _ k hk; omega
  | succ n ih =>
    intro i hi k hk item hget hshape hmin
    have hlen : 0 < buffer.length := Nat.lt_of_le_of_lt (Nat.zero_le i) hi
    rcases Nat.eq_zero_or_pos k with rfl | hkpos
    · simp only [Nat.add_zero, Nat.mod_eq_of_lt hi] at hget ⊢
      simp only [icLookupLoop, hget, if_pos hshape]
    · obtain ⟨k', rfl⟩ : ∃ k', k = k' + 1 := ⟨k - 1, by omega⟩
      rcases hitem : buffer.get? i with _ | item0
      · exact absurd (List.get?_eq_none.mp hitem) (by omega)
      · have hne : item0.shape ≠ shape := by
          refine hmin 0 (by omega) item0 ?_
          rwa [Nat.add_zero, Nat.mod_eq_of_lt hi]
        simp only [icLookupLoop, hitem, if_neg hne]
        have hget' : buffer.get?
            (((i + 1) % buffer.length + k') % buffer.length) = some item := by
          rwa [ic_mod_shift]
        have hrec := ih ((i + 1) % buffer.length) (Nat.mod_lt _ hlen) k'
          (by omega) item hget' hshape (fun j hj it hit => by
            refine hmin (j + 1) (by omega) it ?_
            rwa [ic_mod_shift] at hit)
        rw [ic_mod_shift] at hrec
        exact hrec

lemma ic_exists_shift (L i m : Nat) (hL : 0 < L) (hm : m < L) (hi : i ≤ L + m) :
    ∃ j < L, (i + j) % L = m := by
  refine ⟨(L + m - i) % L, Nat.mod_lt _ hL, ?_⟩
  rw [Nat.add_mod_mod, show i + (L + m - i) = L + m by omega,
    Nat.add_mod_left, Nat.mod_eq_of_lt hm]

/-- C7: `get_ic_prop_offset` starts probing at the slot's last-hit index;
if some ring entry holds the probed shape it returns the first matching
entry's stored property offset (in probe order) and records that entry's
position as the new index; it returns the sentinel `-1` exactly when no
entry of the full ring holds the shape, and then leaves the slot unchanged. -/
theorem get_ic_prop_offset_spec (cr : InlineCacheRingSlot) (shape : Nat)
    (hidx : cr.index < cr.buffer.length) :
    ((get_ic_prop_offset cr shape).1 = -1 ↔
      ∀ item ∈ cr.buffer, item.shape ≠ shape) ∧
    ((get_ic_prop_offset cr shape).1 = -1 → (get_ic_prop_offset cr shape).2 = cr) ∧
    (∀ k < cr.buffer.length, ∀ item,
      cr.buffer.get? ((cr.index + k) % cr.buffer.length) = some item →
      item.shape = shape →
      (∀ j < k, ∀ it,
        cr.buffer.get? ((cr.index + j) % cr.buffer.length) = some it →
        it.shape ≠ shape) →
      get_ic_prop_offset cr shape =
        ((item.prop_offset : Int),
          ⟨cr.buffer, (cr.index + k) % cr.buffer.length⟩)) := by
  have hL : 0 < cr.buffer.length := Nat.lt_of_le_of_lt (Nat.zero_le _) hidx
  refine ⟨?_, ?_, ?_⟩
  · unfold get_ic_prop_offset
    rcases hloop : icLookupLoop cr.buffer shape cr.index cr.buffer.length
      with _ | ⟨i, off⟩
    · simp only [iff_true_intro rfl, true_iff]
      rw [icLookupLoop_none_iff _ _ _ _ hidx] at hloop
      intro item hmem
      obtain ⟨m, hm⟩ := List.get?_of_mem hmem
      have hmlt : m < cr.buffer.length := by
        rcases List.get?_eq_some.mp hm with ⟨h, _⟩
        exact h
      obtain ⟨j, hj, hjm⟩ := ic_exists_shift cr.buffer.length cr.index m hL hmlt
        (by omega)
      exact hloop j hj item (hjm ▸ hm)
    · simp only []
      constructor
      · intro h
        exact absurd h (by omega)
      · intro hall
        exfalso
        have hnone : icLookupLoop cr.buffer shape cr.index cr.buffer.length =
            none := by
          rw [icLookupLoop_none_iff _ _ _ _ hidx]
          intro j _ it hit
          exact hall it (List.get?_mem hit)
        rw [hloop] at hnone
        exact Option.noConfusion hnone
  · unfold get_ic_prop_offset
    rcases hloop : icLookupLoop cr.buffer shape cr.index cr.buffer.length
      with _ | ⟨i, off⟩
    · intro _; rfl
    · intro h
      have h' : (off : Int) = -1 := h
      omega
  · intro k hk item hget hshape hmin
    unfold get_ic_prop_offset
    rw [icLookupLoop_first_hit cr.buffer shape cr.buffer.length cr.index hidx
      k hk item hget hshape hmin]

/-- Witness for C7: a concrete two-entry ring where the shape sits one past
the last-hit index; the lookup returns its offset and moves the index. -/
theorem get_ic_prop_offset_spec_witness :
    get_ic_prop_offset ⟨[⟨10, 3⟩, ⟨20, 7⟩], 0⟩ 20 = ((7 : Int), ⟨[⟨10, 3⟩, ⟨20, 7⟩], 1⟩) := by
  have h := (get_ic_prop_offset_spec ⟨[⟨10, 3⟩, ⟨20, 7⟩], 0⟩ 20 (by decide)).2.2
  have := h 1 (by decide) ⟨20, 7⟩ (by decide) (by decide) (by decide)
  simpa using this

/-! ## Model of array objects for the `js-array.c` builtins

The builtins access the target object only through a fixed set of
object-model operations (`js_get_length64`, `js_get_fast_array`,
`JS_GetPropertyInt64`, `JS_TryGetPropertyInt64`, `JS_SetPropertyInt64`,
`JS_DeletePropertyInt64`, `JS_SetProperty(length)`), none of which are under
`src/`; those operations are modelled from the spec below.  The model object
carries the fast-array backing store (`elems`, whose length is
`u.array.count`) when `fast` is set, an own-property table `props` for the
generic representation, and the value of the `length` property.  Prototype
chains carry no integer properties in this model. -/

/-- Error classes of the spec's taxonomy that the verified builtins raise. -/
inductive JSErr where
  | typeError (msg : String)
  | rangeError (msg : String)
  | parseError (msg : String)
deriving DecidableEq, Repr

/-- `MAX_SAFE_INTEGER = 2^53 - 1`. -/
def maxSafeInteger : Int := 2 ^ 53 - 1

/-- Model of the object a `js-array.c` builtin operates on. -/
structure ArrObj where
  isArray : Bool
  fast : Bool
  elems : List JSVal
  props : Nat → Option JSVal
  len : Nat

/-- Modelled from the spec: `JS_ToInt64Clamp` (external conversion): a
negative index is offset by `negOffset`, then the result is clamped to
`[lo, hi]`. -/
def toInt64Clamp (v lo hi negOffset : Int) : Int :=
  let v' := if v < 0 then v + negOffset else v
  max lo (min hi v')

/-- `js_get_fast_array`: the Array-class fast representation's backing
store, when the object has one. -/
def js_get_fast_array (a : ArrObj) : Option (List JSVal) :=
  if a.isArray && a.fast then some a.elems else none

/-- Modelled from the spec: `JS_TryGetPropertyInt64` — presence plus value of
the own property at an integer index (`none` = hole / absent). -/
def getOwnIdx (a : ArrObj) (n : Nat) : Option JSVal :=
  if a.isArray && a.fast then a.elems.get? n else a.props n

/-- Modelled from the spec: `JS_GetPropertyInt64` — an ordinary property get,
which reads a hole as `undefined`. -/
def getIdx (a : ArrObj) (n : Nat) : JSVal :=
  ((getOwnIdx a n).getD .vundef)

/-- `convert_fast_array_to_array` (modelled from the spec): moves the fast
backing store into ordinary properties; irreversible. -/
def toGeneric (a : ArrObj) : ArrObj :=
  if a.isArray && a.fast then
    { a with fast := false, elems := [], props := fun n => a.elems.get? n }
  else a

/-- Modelled from the spec: `JS_SetPropertyInt64` on the model object.  On a
fast array an in-range index stores in place, the index one past the count
appends (growing the store), and a sparse index converts to the generic
representation first; an Array-class store at index `n ≥ length` updates the
`length` property to `n+1`. -/
def setIdx (a : ArrObj) (n : Nat) (v : JSVal) : ArrObj :=
  if a.isArray && a.fast then
    if n < a.elems.length then
      { a with elems := a.elems.set n v }
    else if n = a.elems.length then
      { a with elems := a.elems ++ [v], len := max a.len (n + 1) }
    else
      let g := toGeneric a
      { g with props := fun m => if m = n then some v else g.props m,
               len := max a.len (n + 1) }
  else
    { a with props := fun m => if m = n then some v else a.props m,
             len := if a.isArray then max a.len (n + 1) else a.len }

/-- Modelled from the spec: `JS_DeletePropertyInt64` — a fast array is first
converted to the generic representation, then the own property is removed. -/
def delIdx (a : ArrObj) (n : Nat) : ArrObj :=
  let g := toGeneric a
  { g with props := fun m => if m = n then none else g.props m }

/-- Modelled from the spec: `JS_SetProperty(obj, length, n)` /
`set_array_length` — on an Array class this truncates the fast store or
deletes own properties at indices `≥ n`; on a plain array-like it only
updates the length field. -/
def setLen (a : ArrObj) (n : Nat) : ArrObj :=
  if a.isArray then
    if a.fast then { a with elems := a.elems.take n, len := n }
    else { a with props := fun m => if m < n then a.props m else none, len := n }
  else { a with len := n }

/-- Modelled from the spec: `js_strict_eq2(..., JS_EQ_SAME_VALUE_ZERO)` —
numbers compare numerically across int/float tags, everything else by
identity.  (No NaN arises in this model.) -/
def sameValueZero : JSVal → JSVal → Bool
  | .vint m, .vint n => m == n
  | .vint m, .vfloat n => m == n
  | .vfloat m, .vint n => m == n
  | .vfloat m, .vfloat n => m == n
  | a, b => a == b

/-! ## C2: `js_array_includes` (js-array.c lines 825-867) -/

/-- `js_array_includes`: probe `[n, len)` for an element SameValueZero-equal
to the target, taking the fast-array path for the physical prefix and the
ordinary property get (`JS_GetPropertyInt64`) — which reads holes as
`undefined` — for the rest.  `startArg` models the optional second argument
(`argc > 1`). -/
def js_array_includes (a : ArrObj) (target : JSVal) (startArg : Option Int) :
    Bool :=
  let len := a.len
  if 0 < len then
    let n : Int := match startArg with
      | none => 0
      | some v => toInt64Clamp v 0 len len
    let n0 : Nat := n.toNat
    match js_get_fast_array a with
    | some arrp =>
      if (List.range' n0 (arrp.length - n0)).any
          (fun i => sameValueZero target (arrp.getD i .vundef)) then
        true
      else
        let n1 := max n0 arrp.length
        (List.range' n1 (len - n1)).any
          (fun i => sameValueZero target (getIdx a i))
    | none =>
      (List.range' n0 (len - n0)).any
        (fun i => sameValueZero target (getIdx a i))
  else false

/-- The array `[1,2,,4]`: a generic (non-fast) Array of length 4 whose own
properties sit at indices 0, 1 and 3, with a hole at index 2. -/
def arrayWithHole : ArrObj :=
  { isArray := true, fast := false, elems := [],
    props := fun n =>
      if n = 0 then some (.vint 1)
      else if n = 1 then some (.vint 2)
      else if n = 3 then some (.vint 4)
      else none,
    len := 4 }

/-- The array `Array(1)`: a fast Array with length 1 and no present slot. -/
def arrayLenOne : ArrObj :=
  { isArray := true, fast := true, elems := [], props := fun _ => none,
    len := 1 }

/-- C2 counterexample: contrary to the claim, `[1,2,,4].includes(undefined)`
evaluates to `true` — the generic loop of `js_array_includes` reads the hole
at index 2 through an ordinary property get, which yields `undefined`. -/
theorem js_array_includes_hole_counterexample :
    js_array_includes arrayWithHole .vundef none = true := by
  decide

/-- C2 amended: `includes(undefined)` returns `true` both on an array with a
hole and on an array of absent slots (`Array(1)`); `js_array_includes` does
not distinguish holes from `undefined` values because it reads elements with
an ordinary get instead of the presence-reporting `TryGet`. -/
theorem js_array_includes_undefined_amended :
    js_array_includes arrayWithHole .vundef none = true ∧
    js_array_includes arrayLenOne .vundef none = true := by
  constructor <;> decide

/-! ## `JS_CopySubArray` (js-array.c lines 194-259) -/

/-- The inner fast-path chunk of `JS_CopySubArray` for `dir > 0`: `l`
sequential `set_value(&values[to+j], JS_DupValue(values[from+j]))` steps with
ascending `j`. -/
def fastCopyFwd : List JSVal → Nat → Nat → Nat → List JSVal
  | es, _, _, 0 => es
  | es, dst, src, l + 1 =>
    fastCopyFwd (es.set dst (es.getD src .vundef)) (dst + 1) (src + 1) l

/-- The inner fast-path chunk of `JS_CopySubArray` for `dir < 0`: `l`
sequential copies with descending positions. -/
def fastCopyBwd : List JSVal → Nat → Nat → Nat → List JSVal
  | es, _, _, 0 => es
  | es, dst, src, l + 1 =>
    fastCopyBwd (es.set dst (es.getD src .vundef)) (dst - 1) (src - 1) l

/-- The loop of `JS_CopySubArray`: per iteration either a fast-array chunk of
`l ≥ 1` elements copied in place, or one generic `TryGet`/`Set`-or-`Delete`
step.  The fuel starts at `count` and bounds the iterations (each iteration
advances `i` by at least 1).  The generic positions are nonnegative at every
call site verified here, so integer positions convert by `toNat`. -/
def copySubLoop (to_pos from_pos count : Int) (dir : Int) :
    Nat → Int → ArrObj → ArrObj
  | 0, _, a => a
  | fuel + 1, i, a =>
    if i < count then
      let fr := if dir < 0 then from_pos + count - i - 1 else from_pos + i
      let t := if dir < 0 then to_pos + count - i - 1 else to_pos + i
      let lenA : Int := a.elems.length
      if a.isArray = true ∧ a.fast = true ∧ 0 ≤ fr ∧ fr < lenA ∧ 0 ≤ t ∧
          t < lenA then
        let l := if dir < 0 then min (count - i) (min (fr + 1) (t + 1))
                 else min (count - i) (min (lenA - fr) (lenA - t))
        let es := if dir < 0 then fastCopyBwd a.elems t.toNat fr.toNat l.toNat
                  else fastCopyFwd a.elems t.toNat fr.toNat l.toNat
        copySubLoop to_pos from_pos count dir fuel (i + l) { a with elems := es }
      else
        match getOwnIdx a fr.toNat with
        | some v => copySubLoop to_pos from_pos count dir fuel (i + 1)
            (setIdx a t.toNat v)
        | none => copySubLoop to_pos from_pos count dir fuel (i + 1)
            (delIdx a t.toNat)
    else a

/-- `JS_CopySubArray(obj, to_pos, from_pos, count, dir)`. -/
def JS_CopySubArray (a : ArrObj) (to_pos from_pos count dir : Int) : ArrObj :=
  copySubLoop to_pos from_pos count dir count.toNat 0 a

/-! ## C3: length-overflow in `js_array_push` / `unshift` / `splice`
(js-array.c lines 1138-1170 and 1239-1338) -/

/-- `JS_SetPropertyInt64` store of consecutive arguments starting at an
index (the `for (i = 0; i < argc; i++)` store loop of `js_array_push`). -/
def setRange : ArrObj → Nat → List JSVal → ArrObj
  | a, _, [] => a
  | a, s, v :: vs => setRange (setIdx a s v) (s + 1) vs

/-- `js_array_push` (also `unshift` via the flag): read the length, reject a
new length beyond `MAX_SAFE_INTEGER` with a `TypeError` *before* touching the
object, otherwise make room (unshift), store the arguments and set the new
length.  Returns the resulting object state and the result value. -/
def js_array_push (a : ArrObj) (args : List JSVal) (unshift : Bool) :
    ArrObj × Except JSErr Int :=
  let len : Int := a.len
  let newLen := len + args.length
  if newLen > maxSafeInteger then
    (a, .error (.typeError "Array loo long"))
  else
    let a1 := if unshift && decide (0 < args.length) then
        JS_CopySubArray a args.length 0 len (-1)
      else a
    let from_ : Nat := if unshift && decide (0 < args.length) then 0 else a.len
    let a2 := setRange a1 from_ args
    let a3 := setLen a2 newLen.toNat
    (a3, .ok newLen)

/-- The argument shapes of `Array.prototype.splice` (`argc = 0`, `argc = 1`,
`argc ≥ 2`); index arguments are already converted to int64 (the external
`ToInt64` read of `argv[0]`/`argv[1]` happens before clamping). -/
inductive SpliceArgs where
  | none0
  | one (startArg : Int)
  | many (startArg delArg : Int) (items : List JSVal)

/-- The descending delete loop `for (k = len; k-- > new_len;)` of splice:
deletes indices `lo + cnt - 1, ..., lo`. -/
def deleteRangeDesc : ArrObj → Nat → Nat → ArrObj
  | a, _, 0 => a
  | a, lo, c + 1 => deleteRangeDesc (delIdx a (lo + c)) lo c

/-- The splice path of `js_array_slice` (js-array.c lines 1239-1338): clamp
the start, compute delete/insert counts, reject a resulting length beyond
`MAX_SAFE_INTEGER` with a `TypeError` before any mutation, extract the
deleted window (the species array, returned here as a presence-aware list),
then shift the tail, delete the excess indices, store the new items and set
the new length. -/
def js_array_splice (a : ArrObj) (args : SpliceArgs) :
    ArrObj × Except JSErr (List (Option JSVal)) :=
  let len : Int := a.len
  let startv : Int := match args with
    | .none0 => 0
    | .one s => s
    | .many s _ _ => s
  let start := toInt64Clamp startv 0 len len
  let item_count : Nat := match args with
    | .none0 => 0
    | .one _ => 0
    | .many _ _ items => items.length
  let del_count : Int := match args with
    | .none0 => 0
    | .one _ => len - start
    | .many _ d _ => toInt64Clamp d 0 (len - start) 0
  if len + item_count - del_count > maxSafeInteger then
    (a, .error (.typeError "Array loo long"))
  else
    let count := del_count
    let extracted := (List.range' start.toNat count.toNat).map
      (fun k => getOwnIdx a k)
    let new_len := len + item_count - del_count
    let a1 := if (item_count : Int) ≠ del_count then
        let a' := JS_CopySubArray a (start + item_count) (start + del_count)
          (len - (start + del_count))
          (if (item_count : Int) ≤ del_count then 1 else -1)
        deleteRangeDesc a' new_len.toNat (len.toNat - new_len.toNat)
      else a
    let items : List JSVal := match args with
      | .many _ _ items => items
      | _ => []
    let a2 := setRange a1 start.toNat items
    let a3 := setLen a2 new_len.toNat
    (a3, .ok extracted)

/-- `true` iff the result is a RangeError-class failure. -/
def isRangeError {α : Type} : Except JSErr α → Bool
  | .error (.rangeError _) => true
  | _ => false

/-- A plain array-like object (not an Array) whose length property already
equals `MAX_SAFE_INTEGER`. -/
def hugeArrayLike : ArrObj :=
  { isArray := false, fast := false, elems := [], props := fun _ => none,
    len := (2 ^ 53 - 1 : Nat) }

/-- C3 counterexample: pushing one element onto an object of length
`2^53 - 1` raises a `TypeError` ("Array loo long"), not the RangeError-class
error the claim names. -/
theorem js_array_push_overflow_not_rangeError :
    isRangeError (js_array_push hugeArrayLike [.vint 0] false).2 = false ∧
    (js_array_push hugeArrayLike [.vint 0] false).2 =
      .error (.typeError "Array loo long") := by
  constructor <;> rfl

/-- C3 amended: every `push`/`unshift`/`splice` whose resulting length would
exceed `MAX_SAFE_INTEGER` raises a TypeError-class length-overflow error
("Array loo long") instead of silently overflowing, and raises it before
storing any of the new elements (the object is returned unchanged). -/
theorem js_array_length_overflow_typeError (a : ArrObj) (args : List JSVal)
    (s d : Int) (items : List JSVal)
    (hpush : (a.len : Int) + args.length > maxSafeInteger)
    (hsplice : (a.len : Int) + items.length -
      toInt64Clamp d 0 ((a.len : Int) - toInt64Clamp s 0 a.len a.len) 0 >
        maxSafeInteger) :
    js_array_push a args false = (a, .error (.typeError "Array loo long")) ∧
    js_array_push a args true = (a, .error (.typeError "Array loo long")) ∧
    js_array_splice a (.many s d items) =
      (a, .error (.typeError "Array loo long")) := by
  refine ⟨?_, ?_, ?_⟩
  · unfold js_array_push
    rw [if_pos hpush]
  · unfold js_array_push
    rw [if_pos hpush]
  · unfold js_array_splice
    rw [if_pos hsplice]

/-- Witness for C3 (amended): the overflow branch taken at a concrete
object of length `2^53 - 1` for all three operations. -/
theorem js_array_length_overflow_typeError_witness :
    js_array_push hugeArrayLike [.vint 0] false =
      (hugeArrayLike, .error (.typeError "Array loo long")) ∧
    js_array_push hugeArrayLike [.vint 0] true =
      (hugeArrayLike, .error (.typeError "Array loo long")) ∧
    js_array_splice hugeArrayLike (.many 0 0 [.vint 0]) =
      (hugeArrayLike, .error (.typeError "Array loo long")) :=
  js_array_length_overflow_typeError hugeArrayLike [.vint 0] 0 0 [.vint 0]
    (by norm_num [hugeArrayLike, maxSafeInteger])
    (by norm_num [hugeArrayLike, maxSafeInteger, toInt64Clamp])

/-! ## C8: `js_array_pop` / `shift` fast path vs generic path
(js-array.c lines 1087-1136) -/

/-- `js_array_pop` (also `shift` via the flag): probe the length; take the
in-place fast-array path only when the physical element count equals the
probed length exactly, else run the generic get/copy/delete path; finally
store the new length.  Returns the resulting state and the removed value. -/
def js_array_pop (a : ArrObj) (shift : Bool) : ArrObj × JSVal :=
  let len := a.len
  if len = 0 then (setLen a 0, .vundef)
  else
    let newLen := len - 1
    if a.isArray = true ∧ a.fast = true ∧ a.elems.length = len then
      if shift then
        (setLen { a with elems := a.elems.tail } newLen,
          (a.elems.get? 0).getD .vundef)
      else
        (setLen { a with elems := a.elems.dropLast } newLen,
          (a.elems.get? (a.elems.length - 1)).getD .vundef)
    else
      let res := if shift then getIdx a 0 else getIdx a newLen
      let a1 := if shift then JS_CopySubArray a 0 1 ((len : Int) - 1) 1 else a
      let a2 := delIdx a1 newLen
      (setLen a2 newLen, res)

/-- The generic per-index path of `js_array_pop` alone (the `else` branch of
the fast-array test), as its own function for the refinement statement. -/
def js_array_pop_generic (a : ArrObj) (shift : Bool) : ArrObj × JSVal :=
  let len := a.len
  if len = 0 then (setLen a 0, .vundef)
  else
    let newLen := len - 1
    let res := if shift then getIdx a 0 else getIdx a newLen
    let a1 := if shift then JS_CopySubArray a 0 1 ((len : Int) - 1) 1 else a
    let a2 := delIdx a1 newLen
    (setLen a2 newLen, res)

/-- Observable state of a model object: its length property and the value an
ordinary get returns at every index below the length. -/
def observe (a : ArrObj) : Nat × List JSVal :=
  (a.len, (List.range a.len).map (getIdx a))

lemma tail_get? (l : List JSVal) (n : Nat) : l.tail.get? n = l.get? (n + 1) := by
  cases l <;> simp [List.get?]

lemma fastCopyFwd_get? :
    ∀ (l dst src : Nat) (es : List JSVal), dst ≤ src → src + l ≤ es.length →
      ∀ m, (fastCopyFwd es dst src l).get? m =
        if dst ≤ m ∧ m < dst + l then es.get? (src + (m - dst))
        else es.get? m := by
  intro l
  induction l with
  | zero =>
    intro dst src es _ _ m
    rw [fastCopyFwd, if_neg (by omega)]
  | succ n ih =>
    intro dst src es hds hlen m
    have hsrc : src < es.length := by omega
    rw [fastCopyFwd,
      ih (dst + 1) (src + 1) (es.set dst (es.getD src .vundef)) (by omega)
        (by rw [List.length_set]; omega)]
    have hset : es.get? src = some (es.getD src .vundef) := by
      rcases hq : es.get? src with _ | x
      · exact absurd (List.get?_eq_none.mp hq) (by omega)
      · rw [List.get?_eq_getElem?] at hq
        simp [List.getD, hq]
    by_cases hm : m = dst
    · subst hm
      rw [if_neg (by omega), if_pos ⟨le_refl _, by omega⟩,
        List.get?_set_eq_of_lt _ (by omega), Nat.sub_self, Nat.add_zero, hset]
    · by_cases hin : dst + 1 ≤ m ∧ m < dst + 1 + n
      · rw [if_pos hin, if_pos (by omega),
          List.get?_set_ne _ _ (by omega),
          show src + 1 + (m - (dst + 1)) = src + (m - dst) by omega]
      · rw [if_neg hin, if_neg (by omega), List.get?_set_ne _ _ (by omega)]

lemma copySubLoop_shift_run (n fuel : Nat) (a : ArrObj) (ha : a.isArray = true)
    (hf : a.fast = true) (hN : a.elems.length = n + 2) :
    copySubLoop 0 1 ((n + 1 : Nat) : Int) 1 (fuel + 1) 0 a =
      { a with elems := fastCopyFwd a.elems 0 1 (n + 1) } := by
  rw [copySubLoop]
  dsimp only
  rw [if_pos (show (0 : Int) < ((n + 1 : Nat) : Int) by push_cast; omega)]
  simp only [if_neg (show ¬((1 : Int) < 0) by norm_num)]
  rw [if_pos (show a.isArray = true ∧ a.fast = true ∧ (0 : Int) ≤ 1 + 0 ∧
      1 + 0 < (a.elems.length : Int) ∧ (0 : Int) ≤ 0 + 0 ∧
      0 + 0 < (a.elems.length : Int) by
    refine ⟨ha, hf, by norm_num, ?_, by norm_num, ?_⟩ <;> rw [hN] <;>
      push_cast <;> omega)]
  have hl : min (((n + 1 : Nat) : Int) - 0)
      (min ((a.elems.length : Int) - (1 + 0)) ((a.elems.length : Int) - (0 + 0)))
        = ((n + 1 : Nat) : Int) := by
    rw [hN]; push_cast; omega
  rw [hl]
  have h1 : ((1 : Int) + 0).toNat = 1 := rfl
  have h0 : ((0 : Int) + 0).toNat = 0 := rfl
  rw [h1, h0, Int.toNat_natCast]
  cases fuel with
  | zero => rw [copySubLoop]
  | succ k =>
    rw [copySubLoop]
    dsimp only
    rw [if_neg (show ¬((0 : Int) + ((n + 1 : Nat) : Int) < ((n + 1 : Nat) : Int))
      by push_cast; omega)]

lemma copySubArray_shift (a : ArrObj) (ha : a.isArray = true)
    (hf : a.fast = true) :
    JS_CopySubArray a 0 1 ((a.elems.length : Int) - 1) 1 =
      { a with elems := fastCopyFwd a.elems 0 1 (a.elems.length - 1) } := by
  rw [JS_CopySubArray]
  rcases hN : a.elems.length with _ | N
  · have h1 : ((0 : Nat) : Int) - 1 = -1 := by norm_num
    rw [h1]
    rw [show ((-1 : Int)).toNat = 0 from rfl]
    rw [copySubLoop, fastCopyFwd]
  · have h1 : (((N + 1 : Nat) : Int) - 1) = ((N : Nat) : Int) := by push_cast; ring
    rw [h1, Int.toNat_natCast, Nat.add_sub_cancel]
    rcases N with _ | n
    · rw [copySubLoop, fastCopyFwd]
    · exact copySubLoop_shift_run n n a ha hf hN

lemma setLen_fast (X : ArrObj) (n : Nat) (h1 : X.isArray = true)
    (h2 : X.fast = true) :
    setLen X n = { X with elems := X.elems.take n, len := n } := by
  rw [setLen, if_pos h1, if_pos h2]

lemma setLen_slow (X : ArrObj) (n : Nat) (h1 : X.isArray = true)
    (h2 : X.fast = false) :
    setLen X n =
      { X with props := fun m => if m < n then X.props m else none, len := n } := by
  rw [setLen, if_pos h1, if_neg (by rw [h2]; simp)]

lemma toGeneric_fast (X : ArrObj) (h1 : X.isArray = true) (h2 : X.fast = true) :
    toGeneric X =
      { X with fast := false, elems := [], props := fun n => X.elems.get? n } := by
  rw [toGeneric, if_pos (by rw [h1, h2]; rfl)]

lemma getIdx_fast (X : ArrObj) (n : Nat) (h1 : X.isArray = true)
    (h2 : X.fast = true) :
    getIdx X n = (X.elems.get? n).getD .vundef := by
  rw [getIdx, getOwnIdx, if_pos (by rw [h1, h2]; rfl)]

lemma getIdx_slow (X : ArrObj) (n : Nat) (h2 : X.fast = false) :
    getIdx X n = (X.props n).getD .vundef := by
  rw [getIdx, getOwnIdx, if_neg (by rw [h2]; simp)]

/-- C8: `js_array_pop`/`shift` take the in-place fast path only when the
physical count equals the probed length; under that precondition the fast
path returns the same removed element and an observably identical final
state (length and every readable element) as the generic
get/copy/delete/set-length path. -/
theorem js_array_pop_fast_refines_generic (a : ArrObj) (shift : Bool)
    (ha : a.isArray = true) (hf : a.fast = true)
    (hcnt : a.elems.length = a.len) :
    (js_array_pop a shift).2 = (js_array_pop_generic a shift).2 ∧
    observe (js_array_pop a shift).1 = observe (js_array_pop_generic a shift).1 ∧
    (∀ b : ArrObj, ¬(b.isArray = true ∧ b.fast = true ∧ b.elems.length = b.len) →
      js_array_pop b shift = js_array_pop_generic b shift) := by
  have hbypass : ∀ b : ArrObj,
      ¬(b.isArray = true ∧ b.fast = true ∧ b.elems.length = b.len) →
      js_array_pop b shift = js_array_pop_generic b shift := by
    intro b hb
    rw [js_array_pop, js_array_pop_generic]
    dsimp only
    by_cases h0 : b.len = 0
    · rw [if_pos h0, if_pos h0]
    · rw [if_neg h0, if_neg h0, if_neg hb]
  obtain ⟨ia, fa, es, ps, ln⟩ := a
  have ha' : ia = true := ha
  have hf' : fa = true := hf
  subst ha' hf'
  have hcnt' : es.length = ln := hcnt
  by_cases h0 : ln = 0
  · have he : js_array_pop ⟨true, true, es, ps, ln⟩ shift =
        js_array_pop_generic ⟨true, true, es, ps, ln⟩ shift := by
      rw [js_array_pop, js_array_pop_generic]
      dsimp only
      rw [if_pos h0, if_pos h0]
    exact ⟨by rw [he], by rw [he], hbypass⟩
  obtain ⟨n, rfl⟩ : ∃ n, ln = n + 1 := ⟨ln - 1, by omega⟩
  have hdlen : es.dropLast.length = n := by
    rw [List.length_dropLast, hcnt']
    omega
  have htlen : es.tail.length = n := by
    rw [List.length_tail, hcnt']
    omega
  have hdtake : es.dropLast.take n = es.dropLast := by
    rw [← hdlen]
    exact List.take_length es.dropLast
  have httake : es.tail.take n = es.tail := by
    rw [← htlen]
    exact List.take_length es.tail
  cases shift with
  | false =>
    have hpop : js_array_pop ⟨true, true, es, ps, n + 1⟩ false =
        (⟨true, true, es.dropLast.take n, ps, n⟩,
          (es.get? (es.length - 1)).getD .vundef) := by
      rw [js_array_pop]
      dsimp only
      rw [if_neg (Nat.succ_ne_zero n), if_pos ⟨rfl, rfl, hcnt'⟩]
      rfl
    have hgen : js_array_pop_generic ⟨true, true, es, ps, n + 1⟩ false =
        (⟨true, false, [],
          fun m => if m < n then (if m = n then none else es.get? m)
            else none, n⟩,
          (es.get? n).getD .vundef) := by
      rw [js_array_pop_generic]
      dsimp only
      rw [if_neg (Nat.succ_ne_zero n)]
      rfl
    refine ⟨?_, ?_, hbypass⟩
    · rw [hpop, hgen]
      dsimp only
      rw [hcnt']
      rfl
    · rw [hpop, hgen]
      unfold observe
      dsimp only
      refine congrArg _ (List.map_eq_map_iff.mpr ?_)
      intro m hm
      have hmlt : m < n := List.mem_range.mp hm
      show ((es.dropLast.take n).get? m).getD .vundef =
        ((if m < n then (if m = n then none else es.get? m)
          else none)).getD .vundef
      rw [hdtake, List.dropLast_eq_take, List.get?_take (by omega),
        if_pos hmlt, if_neg (by omega)]
  | true =>
    have hpop : js_array_pop ⟨true, true, es, ps, n + 1⟩ true =
        (⟨true, true, es.tail.take n, ps, n⟩,
          (es.get? 0).getD .vundef) := by
      rw [js_array_pop]
      dsimp only
      rw [if_neg (Nat.succ_ne_zero n), if_pos ⟨rfl, rfl, hcnt'⟩]
      rfl
    have hcastlen : (((n + 1 : Nat) : Int) - 1) = ((es.length : Int) - 1) := by
      rw [hcnt']
    have hcopy := copySubArray_shift ⟨true, true, es, ps, n + 1⟩ rfl rfl
    have hgen : js_array_pop_generic ⟨true, true, es, ps, n + 1⟩ true =
        (⟨true, false, [],
          fun m => if m < n then
            (if m = n then none
              else (fastCopyFwd es 0 1 (es.length - 1)).get? m)
            else none, n⟩,
          (es.get? 0).getD .vundef) := by
      rw [js_array_pop_generic]
      dsimp only
      rw [if_neg (Nat.succ_ne_zero n), hcastlen, hcopy]
      rfl
    refine ⟨?_, ?_, hbypass⟩
    · rw [hpop, hgen]
    · rw [hpop, hgen]
      unfold observe
      dsimp only
      refine congrArg _ (List.map_eq_map_iff.mpr ?_)
      intro m hm
      have hmlt : m < n := List.mem_range.mp hm
      show ((es.tail.take n).get? m).getD .vundef =
        ((if m < n then
          (if m = n then none
            else (fastCopyFwd es 0 1 (es.length - 1)).get? m)
          else none)).getD .vundef
      rw [httake, tail_get?, if_pos hmlt, if_neg (by omega),
        fastCopyFwd_get? (es.length - 1) 0 1 es (by omega) (by omega),
        if_pos ⟨Nat.zero_le m, by omega⟩, Nat.sub_zero, Nat.add_comm 1 m]

/-- Witness for C8 on the concrete fast array `[1, 2, 3]` with `shift`. -/
theorem js_array_pop_fast_refines_generic_witness :
    (js_array_pop ⟨true, true, [.vint 1, .vint 2, .vint 3], fun _ => none, 3⟩
        true).2 =
      (js_array_pop_generic
        ⟨true, true, [.vint 1, .vint 2, .vint 3], fun _ => none, 3⟩ true).2 ∧
    observe (js_array_pop
        ⟨true, true, [.vint 1, .vint 2, .vint 3], fun _ => none, 3⟩ true).1 =
      observe (js_array_pop_generic
        ⟨true, true, [.vint 1, .vint 2, .vint 3], fun _ => none, 3⟩ true).1 ∧
    (∀ b : ArrObj, ¬(b.isArray = true ∧ b.fast = true ∧ b.elems.length = b.len) →
      js_array_pop b true = js_array_pop_generic b true) :=
  js_array_pop_fast_refines_generic _ true rfl rfl rfl

/-! ## C9: `expand_fast_array` growth (js-array.c lines 102-116) and the
push element count

The fast-array payload is a buffer of `u1.size` (capacity) slots of which
the first `count` hold values; `js_realloc2` is external and returns the
requested block plus an allocator-dependent slack, modelled by a
nonnegative `slack` parameter counted in elements. -/

/-- The fast-array backing store: `values` are the populated slots
(`count = values.length`), `size` is the allocated capacity. -/
structure FastArrayStore where
  values : List JSVal
  size : Nat
deriving Repr

/-- `expand_fast_array`: grow the capacity to
`max new_len (size * 9 / 2)` plus allocator slack; `realloc` preserves the
stored values. -/
def expand_fast_array (s : FastArrayStore) (new_len : Nat) (slack : Nat) :
    FastArrayStore :=
  let new_size := max new_len (s.size * 9 / 2)
  { s with size := new_size + slack }

/-- Modelled from the spec: the fast-array append path of
`JS_SetPropertyValue` (`add_fast_array_element`, external): expand the
buffer via `expand_fast_array` when the count would pass the capacity, then
store the value at index `count`. -/
def add_fast_array_element (s : FastArrayStore) (v : JSVal) (slack : Nat) :
    FastArrayStore :=
  let new_len := s.values.length + 1
  let s1 := if s.size < new_len then expand_fast_array s new_len slack else s
  { s1 with values := s1.values ++ [v] }

/-- The store loop of `js_array_push` restricted to a fast array whose
count equals its length: each argument lands one past the current count. -/
def pushElements (s : FastArrayStore) (args : List JSVal) (slack : Nat) :
    FastArrayStore :=
  args.foldl (fun acc v => add_fast_array_element acc v slack) s

/-- C9 counterexample: growing a store of capacity 1 to hold 2 elements
(zero slack) yields capacity `max 2 (1 * 9 / 2) = 4`, which is below the
claimed bound `max 2 (4.5 × 1) = 4.5` — the C expression `size * 9 / 2`
rounds 4.5× down on odd capacities. -/
theorem expand_fast_array_claim_counterexample :
    ((expand_fast_array ⟨[], 1⟩ 2 0).size : ℚ) <
      max (2 : ℚ) ((9 / 2 : ℚ) * 1) := by
  norm_num [expand_fast_array]

lemma add_fast_array_element_spec (s : FastArrayStore) (v : JSVal)
    (slack : Nat) :
    (add_fast_array_element s v slack).values = s.values ++ [v] ∧
    ((add_fast_array_element s v slack).values.length ≤
      (add_fast_array_element s v slack).size ∨
      s.values.length + 1 ≤ s.size) := by
  rw [add_fast_array_element]
  dsimp only
  by_cases h : s.size < s.values.length + 1
  · rw [if_pos h]
    refine ⟨rfl, .inl ?_⟩
    rw [expand_fast_array]
    dsimp only
    rw [List.length_append]
    simp only [List.length_cons, List.length_nil]
    have := Nat.le_max_left (s.values.length + 1) (s.size * 9 / 2)
    omega
  · rw [if_neg h]
    exact ⟨rfl, .inr (by omega)⟩

lemma pushElements_spec (s : FastArrayStore) (args : List JSVal) (slack : Nat) :
    (pushElements s args slack).values = s.values ++ args ∧
    (s.values.length ≤ s.size →
      (pushElements s args slack).values.length ≤
        (pushElements s args slack).size) := by
  induction args generalizing s with
  | nil => exact ⟨by simp [pushElements], fun h => by simpa [pushElements] using h⟩
  | cons v vs ih =>
    have hstep := add_fast_array_element_spec s v slack
    have hrec := ih (add_fast_array_element s v slack)
    have hp : pushElements s (v :: vs) slack =
        pushElements (add_fast_array_element s v slack) vs slack := rfl
    constructor
    · rw [hp, hrec.1, hstep.1]
      simp
    · intro hinv
      rw [hp]
      refine hrec.2 ?_
      rcases hstep.2 with h | h
      · exact h
      · rw [hstep.1, List.length_append]
        rw [add_fast_array_element, if_neg (by omega)]
        simpa using h

/-- C9 amended: on success `expand_fast_array` yields capacity exactly
`max new_len (prev * 9 / 2)` plus the allocator slack — hence at least
`new_len` and at least `⌊4.5 × prev⌋` (integer arithmetic, not the exact
rational 4.5×) — preserving every stored value and the `count ≤ capacity`
invariant; pushing `k` elements appends them, so the count afterwards is
the prior count plus `k` and the invariant is maintained. -/
theorem expand_fast_array_growth (s : FastArrayStore) (new_len slack : Nat)
    (args : List JSVal) (hcnt : s.values.length ≤ new_len)
    (hinv : s.values.length ≤ s.size) :
    (expand_fast_array s new_len slack).values = s.values ∧
    (expand_fast_array s new_len slack).size =
      max new_len (s.size * 9 / 2) + slack ∧
    new_len ≤ (expand_fast_array s new_len slack).size ∧
    s.size * 9 / 2 ≤ (expand_fast_array s new_len slack).size ∧
    (expand_fast_array s new_len slack).values.length ≤
      (expand_fast_array s new_len slack).size ∧
    (pushElements s args slack).values = s.values ++ args ∧
    (pushElements s args slack).values.length = s.values.length + args.length ∧
    (pushElements s args slack).values.length ≤ (pushElements s args slack).size := by
  have hmax1 := Nat.le_max_left new_len (s.size * 9 / 2)
  have hmax2 := Nat.le_max_right new_len (s.size * 9 / 2)
  have hpush := pushElements_spec s args slack
  refine ⟨rfl, rfl, by rw [expand_fast_array]; dsimp only; omega,
    by rw [expand_fast_array]; dsimp only; omega,
    ?_, hpush.1, ?_, hpush.2 hinv⟩
  · rw [expand_fast_array]
    dsimp only
    omega
  · rw [hpush.1, List.length_append]

/-- Witness for C9 (amended) at a store holding two values in capacity 2,
expanded for four and pushed with two more elements. -/
theorem expand_fast_array_growth_witness :
    (expand_fast_array ⟨[.vint 1, .vint 2], 2⟩ 4 0).values =
      [.vint 1, .vint 2] ∧
    (expand_fast_array ⟨[.vint 1, .vint 2], 2⟩ 4 0).size =
      max 4 (2 * 9 / 2) + 0 ∧
    4 ≤ (expand_fast_array ⟨[.vint 1, .vint 2], 2⟩ 4 0).size ∧
    2 * 9 / 2 ≤ (expand_fast_array ⟨[.vint 1, .vint 2], 2⟩ 4 0).size ∧
    (expand_fast_array ⟨[.vint 1, .vint 2], 2⟩ 4 0).values.length ≤
      (expand_fast_array ⟨[.vint 1, .vint 2], 2⟩ 4 0).size ∧
    (pushElements ⟨[.vint 1, .vint 2], 2⟩ [.vint 3, .vint 4] 0).values =
      [.vint 1, .vint 2] ++ [.vint 3, .vint 4] ∧
    (pushElements ⟨[.vint 1, .vint 2], 2⟩ [.vint 3, .vint 4] 0).values.length =
      [JSVal.vint 1, .vint 2].length + [JSVal.vint 3, .vint 4].length ∧
    (pushElements ⟨[.vint 1, .vint 2], 2⟩ [.vint 3, .vint 4] 0).values.length ≤
      (pushElements ⟨[.vint 1, .vint 2], 2⟩ [.vint 3, .vint 4] 0).size :=
  expand_fast_array_growth ⟨[.vint 1, .vint 2], 2⟩ 4 0 [.vint 3, .vint 4]
    (by norm_num) (by norm_num)

/-! ## C1: stable `Array.prototype.sort`
(js-array.c lines 1480-1539 `js_array_cmp_generic`, 1541-1623 `js_array_sort`)

`js_array_sort` collects the present, non-undefined elements into a
`ValueSlot` array carrying each element's original index (`pos`), hands it
to the external `rqsort` with `js_array_cmp_generic` as comparator, and
writes the sorted slots back in order.  The source slot also memoizes the
`ToString` conversion (`str`); conversions are pure functions here, so the
memo has no observable effect and the model slot carries `val` and `pos`.
The comparator is modelled as a pure function (no exceptions pending). -/

/-- A sort slot: the element value and its original index. -/
structure ValueSlot (V : Type) where
  val : V
  pos : Nat
deriving DecidableEq, Repr

/-- The C idiom `(v > 0) - (v < 0)`: the sign of the comparator result
(its magnitude is ignored). -/
def csign (v : Int) : Int := (if 0 < v then 1 else 0) - (if v < 0 then 1 else 0)

/-- The tie-break `(ap->pos > bp->pos) - (ap->pos < bp->pos)` making the
sort stable. -/
def posCompare {V : Type} (a b : ValueSlot V) : Int :=
  (if b.pos < a.pos then 1 else 0) - (if a.pos < b.pos then 1 else 0)

/-- Modelled from the spec: `js_string_compare` (external) — code-unit-wise
lexicographic comparison of the two conversions. -/
def strCompare : List Nat → List Nat → Int
  | [], [] => 0
  | [], _ :: _ => -1
  | _ :: _, [] => 1
  | a :: as, b :: bs =>
    if a < b then -1 else if b < a then 1 else strCompare as bs

/-- `js_array_cmp_generic`: with a custom comparator, identical values are
short-circuited (`memcmp` on the value representation) straight to the
positional tie-break; otherwise the sign of the comparator result decides,
zero falling through to the tie-break.  With the default comparator the
string conversions are compared, zero again falling through. -/
def js_array_cmp_generic {V : Type} [DecidableEq V] (hasMethod : Bool)
    (method : V → V → Int) (toStr : V → List Nat) (a b : ValueSlot V) : Int :=
  if hasMethod then
    if a.val = b.val then posCompare a b
    else
      let cmp := csign (method a.val b.val)
      if cmp ≠ 0 then cmp else posCompare a b
  else
    let cmp := strCompare (toStr a.val) (toStr b.val)
    if cmp ≠ 0 then cmp else posCompare a b

/-- The collection loop of `js_array_sort`: walk indices upward, skip holes
(absent via `TryGet`) and undefined values, and record each kept element
with its original index in `pos`. -/
def collectSlotsFrom {V : Type} (isUndef : V → Bool) :
    Nat → List (Option V) → List (ValueSlot V)
  | _, [] => []
  | i, none :: rest => collectSlotsFrom isUndef (i + 1) rest
  | i, some v :: rest =>
    if isUndef v then collectSlotsFrom isUndef (i + 1) rest
    else ⟨v, i⟩ :: collectSlotsFrom isUndef (i + 1) rest

/-- The slot array `js_array_sort` passes to `rqsort`. -/
def collectSlots {V : Type} (isUndef : V → Bool) (entries : List (Option V)) :
    List (ValueSlot V) :=
  collectSlotsFrom isUndef 0 entries

/-- Modelled from the spec: `rqsort` (external sort routine) — its result is
a permutation of the input ordered by the comparator; the spec requires
stability "regardless of underlying algorithm", so any output satisfying
this postcondition is considered. -/
def rqsortPost {α : Type} (cmp : α → α → Int) (input output : List α) : Prop :=
  output.Perm input ∧ List.Pairwise (fun a b => cmp a b ≤ 0) output

/-- The pairs the comparison "deems equal": under a custom comparator,
identical values (short-circuited) or a zero-sign comparator result; under
the default comparator, equal string conversions. -/
def deemsEqual {V : Type} [DecidableEq V] (hasMethod : Bool)
    (method : V → V → Int) (toStr : V → List Nat) (x y : V) : Prop :=
  if hasMethod then x = y ∨ csign (method x y) = 0
  else strCompare (toStr x) (toStr y) = 0

lemma cmp_of_deemsEqual {V : Type} [DecidableEq V] (hasMethod : Bool)
    (method : V → V → Int) (toStr : V → List Nat) (a b : ValueSlot V)
    (h : deemsEqual hasMethod method toStr a.val b.val) :
    js_array_cmp_generic hasMethod method toStr a b = posCompare a b := by
  rw [js_array_cmp_generic]
  rw [deemsEqual] at h
  cases hasMethod with
  | false =>
    rw [if_neg (by simp)] at h ⊢
    rw [h]
    simp
  | true =>
    rw [if_pos rfl] at h ⊢
    rcases h with h | h
    · rw [if_pos h]
    · by_cases hv : a.val = b.val
      · rw [if_pos hv]
      · rw [if_neg hv, h]
        simp

lemma posCompare_le_zero {V : Type} (a b : ValueSlot V)
    (h : posCompare a b ≤ 0) : a.pos ≤ b.pos := by
  rw [posCompare] at h
  by_cases hlt : b.pos < a.pos
  · rw [if_pos hlt] at h
    omega
  · omega

lemma collectSlotsFrom_pos_lb {V : Type} (isUndef : V → Bool) :
    ∀ (l : List (Option V)) (i : Nat) (s : ValueSlot V),
      s ∈ collectSlotsFrom isUndef i l → i ≤ s.pos := by
  intro l
  induction l with
  | nil => intro i s hs; cases hs
  | cons e rest ih =>
    intro i s hs
    cases e with
    | none => exact Nat.le_of_succ_le (ih (i + 1) s hs)
    | some v =>
      rw [collectSlotsFrom] at hs
      by_cases hu : isUndef v
      · rw [if_pos hu] at hs
        exact Nat.le_of_succ_le (ih (i + 1) s hs)
      · rw [if_neg hu] at hs
        rcases List.mem_cons.mp hs with rfl | hs
        · exact le_refl _
        · exact Nat.le_of_succ_le (ih (i + 1) s hs)

lemma collectSlotsFrom_pos_sorted {V : Type} (isUndef : V → Bool) :
    ∀ (l : List (Option V)) (i : Nat),
      List.Pairwise (fun a b : ValueSlot V => a.pos < b.pos)
        (collectSlotsFrom isUndef i l) := by
  intro l
  induction l with
  | nil => intro i; exact List.Pairwise.nil
  | cons e rest ih =>
    intro i
    cases e with
    | none => exact ih (i + 1)
    | some v =>
      rw [collectSlotsFrom]
      by_cases hu : isUndef v
      · rw [if_pos hu]
        exact ih (i + 1)
      · rw [if_neg hu]
        refine List.Pairwise.cons ?_ (ih (i + 1))
        intro s hs
        exact Nat.lt_of_succ_le (collectSlotsFrom_pos_lb isUndef rest (i + 1) s hs)

lemma collectSlotsFrom_mem {V : Type} (isUndef : V → Bool) :
    ∀ (l : List (Option V)) (i : Nat) (s : ValueSlot V),
      s ∈ collectSlotsFrom isUndef i l → l.get? (s.pos - i) = some (some s.val) := by
  intro l
  induction l with
  | nil => intro i s hs; cases hs
  | cons e rest ih =>
    intro i s hs
    cases e with
    | none =>
      have hlb := collectSlotsFrom_pos_lb isUndef rest (i + 1) s hs
      have := ih (i + 1) s hs
      rw [show s.pos - i = (s.pos - (i + 1)) + 1 by omega]
      simpa using this
    | some v =>
      rw [collectSlotsFrom] at hs
      by_cases hu : isUndef v
      · rw [if_pos hu] at hs
        have hlb := collectSlotsFrom_pos_lb isUndef rest (i + 1) s hs
        have := ih (i + 1) s hs
        rw [show s.pos - i = (s.pos - (i + 1)) + 1 by omega]
        simpa using this
      · rw [if_neg hu] at hs
        rcases List.mem_cons.mp hs with rfl | hs
        · simp
        · have hlb := collectSlotsFrom_pos_lb isUndef rest (i + 1) s hs
          have := ih (i + 1) s hs
          rw [show s.pos - i = (s.pos - (i + 1)) + 1 by omega]
          simpa using this

/-- C1: for any array-like contents and any `rqsort` output ordered by
`js_array_cmp_generic`, two elements the comparison deems equal appear in
the output in their original relative index order (their `pos` fields, the
original indices recorded by the collection loop, increase), because every
zero comparison is resolved by comparing original positions. -/
theorem js_array_sort_stable {V : Type} [DecidableEq V] (hasMethod : Bool)
    (method : V → V → Int) (toStr : V → List Nat) (isUndef : V → Bool)
    (entries : List (Option V)) (output : List (ValueSlot V))
    (hsort : rqsortPost (js_array_cmp_generic hasMethod method toStr)
      (collectSlots isUndef entries) output)
    (i j : Nat) (hi : i < output.length) (hj : j < output.length) (hij : i < j)
    (heq : deemsEqual hasMethod method toStr (output.get ⟨i, hi⟩).val
      (output.get ⟨j, hj⟩).val) :
    (output.get ⟨i, hi⟩).pos < (output.get ⟨j, hj⟩).pos ∧
    entries.get? (output.get ⟨i, hi⟩).pos = some (some (output.get ⟨i, hi⟩).val) := by
  obtain ⟨hperm, hpw⟩ := hsort
  have hcmple : js_array_cmp_generic hasMethod method toStr
      (output.get ⟨i, hi⟩) (output.get ⟨j, hj⟩) ≤ 0 :=
    List.pairwise_iff_get.mp hpw ⟨i, hi⟩ ⟨j, hj⟩ hij
  rw [cmp_of_deemsEqual _ _ _ _ _ heq] at hcmple
  have hposle := posCompare_le_zero _ _ hcmple
  have hnodup : (output.map (fun s => s.pos)).Nodup := by
    refine ((hperm.map (fun s => s.pos)).nodup_iff).mpr ?_
    have hsorted := collectSlotsFrom_pos_sorted isUndef entries 0
    refine List.Pairwise.imp ?_ (List.pairwise_map.mpr hsorted)
    exact fun h => Nat.ne_of_lt h
  have hne : (output.get ⟨i, hi⟩).pos ≠ (output.get ⟨j, hj⟩).pos := by
    intro hcontra
    have h1 : (output.map (fun s => s.pos)).get ⟨i, by simpa using hi⟩ =
        (output.map (fun s => s.pos)).get ⟨j, by simpa using hj⟩ := by
      rw [List.get_map, List.get_map]
      exact hcontra
    have := (List.Nodup.get_inj_iff hnodup).mp h1
    simp only [Fin.mk.injEq] at this
    omega
  have hmem : output.get ⟨i, hi⟩ ∈ collectSlots isUndef entries :=
    hperm.subset (List.get_mem output _ _)
  have hlook := collectSlotsFrom_mem isUndef entries 0 _ hmem
  rw [Nat.sub_zero] at hlook
  exact ⟨by omega, hlook⟩

/-- Witness for C1: two equal keys with a constant-zero comparator stay in
original order in the (unique) sorted permutation. -/
theorem js_array_sort_stable_witness :
    ((([⟨7, 0⟩, ⟨7, 1⟩] : List (ValueSlot Int)).get ⟨0, by norm_num⟩).pos <
      (([⟨7, 0⟩, ⟨7, 1⟩] : List (ValueSlot Int)).get ⟨1, by norm_num⟩).pos ∧
    ([some 7, some 7] : List (Option Int)).get?
        ((([⟨7, 0⟩, ⟨7, 1⟩] : List (ValueSlot Int)).get ⟨0, by norm_num⟩).pos) =
      some (some ((([⟨7, 0⟩, ⟨7, 1⟩] : List (ValueSlot Int)).get
        ⟨0, by norm_num⟩).val))) :=
  js_array_sort_stable true (fun _ _ => 0) (fun _ => []) (fun _ => false)
    [some 7, some 7] [⟨7, 0⟩, ⟨7, 1⟩]
    ⟨by decide, by decide⟩ 0 1 (by norm_num) (by norm_num) (by norm_num)
    (by simp [deemsEqual])

/-! ## C6: the indentation gap of `JS_JSONStringify`
(js-json.c lines 656-682)

JS strings are modelled as `List Char`.  Number payloads are exact integers
in this model (the external `JS_ToInt32Clamp` saturates a double to int32
before clamping); wrapper objects (`JS_CLASS_NUMBER`/`STRING`) unwrap to
their primitive before this code runs and are not modelled separately. -/

/-- `JS_IsNumber`. -/
def js_IsNumber : JSVal → Bool
  | .vint _ => true
  | .vfloat _ => true
  | _ => false

/-- Modelled from the spec: `JS_ToInt32Sat` (external) on an exact integer
payload — saturation at the int32 bounds. -/
def toInt32Sat (n : Int) : Int := max (-(2 ^ 31)) (min (2 ^ 31 - 1) n)

/-- The gap computation of `JS_JSONStringify`: a numeric space argument is
converted with `JS_ToInt32Clamp(…, 0, 10, 0)` and becomes that many spaces
taken from the ten-space literal; a string space argument is truncated to
its first ten characters (`js_sub_string(p, 0, min(len, 10))`); anything
else yields the empty gap. -/
def jsonGap (space : JSVal) : List Char :=
  if js_IsNumber space then
    let n := max 0 (min 10 (toInt32Sat (numVal space)))
    (List.replicate 10 ' ').take n.toNat
  else
    match space with
    | .vstr s => s.take 10
    | _ => []

/-- C6: the gap never exceeds ten characters: a numeric space is clamped to
`[0,10]` and becomes that many spaces, a string space is truncated to its
first ten characters, and any other space yields the empty gap. -/
theorem jsonGap_clamped :
    (∀ space : JSVal, (jsonGap space).length ≤ 10) ∧
    (∀ n : Int, jsonGap (.vint n) =
      List.replicate (max 0 (min 10 n)).toNat ' ') ∧
    (∀ n : Int, jsonGap (.vfloat n) =
      List.replicate (max 0 (min 10 n)).toNat ' ') ∧
    (∀ s : List Char, jsonGap (.vstr s) = s.take 10) ∧
    jsonGap .vundef = [] ∧ jsonGap .vnull = [] ∧
    (∀ b : Bool, jsonGap (.vbool b) = []) ∧
    (∀ id : Nat, jsonGap (.vref id) = []) := by
  have hnum : ∀ n : Int,
      (List.replicate 10 ' ').take (max 0 (min 10 (toInt32Sat n))).toNat =
        List.replicate (max 0 (min 10 n)).toNat ' ' := by
    intro n
    rw [List.take_replicate]
    congr 1
    rw [toInt32Sat]
    omega
  refine ⟨?_, fun n => hnum n, fun n => hnum n, fun s => rfl, rfl, rfl,
    fun b => rfl, fun id => rfl⟩
  intro space
  cases space with
  | vint n =>
    rw [show jsonGap (.vint n) = List.replicate (max 0 (min 10 n)).toNat ' '
      from hnum n]
    rw [List.length_replicate]
    omega
  | vfloat n =>
    rw [show jsonGap (.vfloat n) = List.replicate (max 0 (min 10 n)).toNat ' '
      from hnum n]
    rw [List.length_replicate]
    omega
  | vstr s =>
    rw [show jsonGap (.vstr s) = s.take 10 from rfl]
    rw [List.length_take]
    omega
  | vundef => rw [show jsonGap .vundef = [] from rfl]; norm_num
  | vnull => rw [show jsonGap .vnull = [] from rfl]; norm_num
  | vbool b => rw [show jsonGap (.vbool b) = [] from rfl]; norm_num
  | vref id => rw [show jsonGap (.vref id) = [] from rfl]; norm_num

/-! ## C5: `json_parse_value` / `JS_ParseJSON2`
(js-json.c lines 50-199)

The tokenizer (`json_next_token`, external) is modelled as a token stream
given up front; consuming the next token is taking the tail of the stream,
and the stream ends with an explicit `eof` token.  Parse errors carry
generic messages (the source formats richer diagnostics). -/

/-- Tokens of the JSON tokenizer. -/
inductive JsonTok where
  | lbrace
  | rbrace
  | lbracket
  | rbracket
  | colon
  | comma
  | str (s : List Char)
  | num (n : Int)
  | ident (s : List Char)
  | eof
deriving DecidableEq, Repr

/-- Parsed JSON values (parser output; number tokens carry exact integers
in this model). -/
inductive JVal where
  | jnull
  | jbool (b : Bool)
  | jint (n : Int)
  | jstr (s : List Char)
  | jarr (elems : List JVal)
  | jobj (fields : List (List Char × JVal))

mutual
/-- `json_parse_value`: top-down parse of one JSON value from the stream.
The head of the stream is the current token.  The `ext` flag is
`JS_PARSE_JSON_EXT` (`s->ext_json`).  The fuel bounds the recursion
(initially one more than the stream length; each step consumes tokens). -/
def json_parse_value (ext : Bool) (fuel : Nat) (toks : List JsonTok) :
    Except JSErr (JVal × List JsonTok) :=
  match fuel with
  | 0 => .error (.parseError "fuel exhausted")
  | fuel + 1 =>
    match toks with
    | .lbrace :: rest =>
      match rest with
      | .rbrace :: rest2 => .ok (.jobj [], rest2)
      | _ => json_parse_obj_fields ext fuel rest []
    | .lbracket :: rest =>
      match rest with
      | .rbracket :: rest2 => .ok (.jarr [], rest2)
      | _ => json_parse_arr_elems ext fuel rest []
    | .str s :: rest => .ok (.jstr s, rest)
    | .num n :: rest => .ok (.jint n, rest)
    | .ident s :: rest =>
      if s = "true".toList then .ok (.jbool true, rest)
      else if s = "false".toList then .ok (.jbool false, rest)
      else if s = "null".toList then .ok (.jnull, rest)
      else .error (.parseError "unexpected token")
    | .eof :: _ => .error (.parseError "unexpected end of input")
    | _ => .error (.parseError "unexpected token")

/-- The object-member loop of `json_parse_value` (`case '{'`): expect a
property name (a string, or in extended mode an identifier), a colon and a
value; stop at a token other than a comma, or — in extended mode — at a
closing brace right after a comma; finally expect the closing brace. -/
def json_parse_obj_fields (ext : Bool) (fuel : Nat) (toks : List JsonTok)
    (acc : List (List Char × JVal)) : Except JSErr (JVal × List JsonTok) :=
  match fuel with
  | 0 => .error (.parseError "fuel exhausted")
  | fuel + 1 =>
    match toks with
    | .str name :: rest => json_parse_obj_member ext fuel name rest acc
    | .ident name :: rest =>
      if ext then json_parse_obj_member ext fuel name rest acc
      else .error (.parseError "expecting property name")
    | _ => .error (.parseError "expecting property name")

/-- One member after its name: the colon, the value, and the loop's
continue-or-break decision. -/
def json_parse_obj_member (ext : Bool) (fuel : Nat) (name : List Char)
    (toks : List JsonTok) (acc : List (List Char × JVal)) :
    Except JSErr (JVal × List JsonTok) :=
  match toks with
  | .colon :: rest =>
    match json_parse_value ext fuel rest with
    | .error e => .error e
    | .ok (v, rest2) =>
      let acc2 := acc ++ [(name, v)]
      match rest2 with
      | .comma :: rest3 =>
        if ext then
          match rest3 with
          | .rbrace :: rest4 => .ok (.jobj acc2, rest4)
          | _ => json_parse_obj_fields ext fuel rest3 acc2
        else json_parse_obj_fields ext fuel rest3 acc2
      | .rbrace :: rest3 => .ok (.jobj acc2, rest3)
      | _ => .error (.parseError "expecting closing brace")
  | _ => .error (.parseError "expecting colon")

/-- The element loop of `json_parse_value` (`case '['`): parse a value,
stop at a token other than a comma, or — in extended mode — at a closing
bracket right after a comma; finally expect the closing bracket. -/
def json_parse_arr_elems (ext : Bool) (fuel : Nat) (toks : List JsonTok)
    (acc : List JVal) : Except JSErr (JVal × List JsonTok) :=
  match fuel with
  | 0 => .error (.parseError "fuel exhausted")
  | fuel + 1 =>
    match json_parse_value ext fuel toks with
    | .error e => .error e
    | .ok (v, rest) =>
      let acc2 := acc ++ [v]
      match rest with
      | .comma :: rest2 =>
        if ext then
          match rest2 with
          | .rbracket :: rest3 => .ok (.jarr acc2, rest3)
          | _ => json_parse_arr_elems ext fuel rest2 acc2
        else json_parse_arr_elems ext fuel rest2 acc2
      | .rbracket :: rest2 => .ok (.jarr acc2, rest2)
      | _ => .error (.parseError "expecting closing bracket")
end

/-- `JS_ParseJSON2`: parse one value and require the end of input
(`TOK_EOF`); the `JS_PARSE_JSON_EXT` flag selects the extended mode. -/
def JS_ParseJSON2 (toks : List JsonTok) (ext : Bool) : Except JSErr JVal :=
  match json_parse_value ext (toks.length + 1) toks with
  | .error e => .error e
  | .ok (v, rest) =>
    match rest with
    | .eof :: _ => .ok v
    | _ => .error (.parseError "unexpected data at the end")

/-- C5: for every key `s` and number `n`, the token stream of
`{"s": n,}` (trailing comma before the closing brace) fails with a parse
error in strict mode, while in extended mode (`JS_PARSE_JSON_EXT`) it
succeeds and yields exactly the value the stream without the trailing comma
yields in strict mode, the object `{s: n}`. -/
theorem json_parse_trailing_comma (s : List Char) (n : Int) :
    JS_ParseJSON2 [.lbrace, .str s, .colon, .num n, .comma, .rbrace, .eof]
      false = .error (.parseError "expecting property name") ∧
    JS_ParseJSON2 [.lbrace, .str s, .colon, .num n, .comma, .rbrace, .eof]
      true = .ok (.jobj [(s, .jint n)]) ∧
    JS_ParseJSON2 [.lbrace, .str s, .colon, .num n, .rbrace, .eof]
      false = .ok (.jobj [(s, .jint n)]) ∧
    JS_ParseJSON2 [.lbrace, .str s, .colon, .num n, .comma, .rbrace, .eof]
      true =
      JS_ParseJSON2 [.lbrace, .str s, .colon, .num n, .rbrace, .eof] false := by
  refine ⟨?_, ?_, ?_, ?_⟩ <;>
    simp [JS_ParseJSON2, json_parse_value, json_parse_obj_fields,
      json_parse_obj_member]

/-! ## C4: circular-reference detection in `JSON.stringify`
(js-json.c lines 325-386 `js_json_check`, 388-581 `js_json_to_str`)

Stringify traverses a value graph: heap objects (arrays or plain objects)
are referenced by id (`JSVal.vref`), so cycles are expressible.  The
traversal stack holds the ids of the objects being serialized; the source
tests membership with `js_array_includes(jsc->stack, …)`, whose
SameValueZero on object references is pointer identity, modelled as id
membership.  `js_array_push`/`js_array_pop` on the stack are the list
append performed before recursing into an object's children and the
implicit drop afterwards (the model passes the stack by value).  Neither
`toJSON` methods nor a replacer function exist in this model, so
`js_json_check` reduces to its tag switch; `JS_ToQuotedString` (external)
is modelled without escaping. -/

/-- Payload of a heap object as stringify sees it: an Array (element list)
or a plain object (enumerable string-keyed fields). -/
inductive ObjData where
  | arr (elems : List JSVal)
  | obj (fields : List (List Char × JSVal))

/-- The heap: object ids mapped to their payloads. -/
abbrev Heap := List (Nat × ObjData)

/-- `js_json_check` with no `toJSON` method and no replacer: the tag switch
keeps objects, strings, numbers, booleans and null, and maps everything
else (here only `undefined`) to `undefined`, which callers skip or encode
as `null`. -/
def js_json_check (v : JSVal) : JSVal :=
  match v with
  | .vref id => .vref id
  | .vstr s => .vstr s
  | .vint n => .vint n
  | .vfloat n => .vfloat n
  | .vbool b => .vbool b
  | .vundef => .vundef
  | .vnull => .vnull

/-- `JS_ToQuotedString` modelled without escaping. -/
def quoteStr (s : List Char) : List Char := '"' :: (s ++ ['"'])

/-- Decimal rendering of an exact number value. -/
def numToChars (n : Int) : List Char := (toString n).toList

mutual
/-- `js_json_to_str`: serialize one value.  For a heap object: first the
circular check — if the object is already a member of the traversal stack,
stop immediately with the `TypeError` "circular reference" — then compute
the inner indent and separators, push the object on the stack, serialize
the children (array elements or object fields) against the pushed stack,
and emit the bracketed body (the pop is the return to the caller's
stack).  The fuel bounds the ref-chain depth; the stack check fires before
any fuel is consumed by children. -/
def js_json_to_str (H : Heap) (gap : List Char) (fuel : Nat)
    (stack : List Nat) (indent : List Char) (v : JSVal) :
    Except JSErr (List Char) :=
  match fuel with
  | 0 => .error (.typeError "stringify fuel exhausted")
  | fuel + 1 =>
    match v with
    | .vref id =>
      if id ∈ stack then .error (.typeError "circular reference")
      else
        match H.lookup id with
        | none => .error (.typeError "dangling reference")
        | some od =>
          let indent1 := indent ++ gap
          let sep : List Char := if gap = [] then [] else '\n' :: indent1
          let sep1 : List Char := if gap = [] then [] else [' ']
          let stack1 := stack ++ [id]
          match od with
          | .arr elems =>
            match js_json_arr H gap fuel stack1 indent1 sep elems true with
            | .error e => .error e
            | .ok body =>
              let close : List Char :=
                if elems.length ≠ 0 ∧ gap ≠ [] then '\n' :: indent else []
              .ok ('[' :: (body ++ close ++ [']']))
          | .obj fields =>
            match js_json_obj H gap fuel stack1 indent1 sep sep1 fields
                false with
            | .error e => .error e
            | .ok (body, hasContent) =>
              let close : List Char :=
                if hasContent = true ∧ gap ≠ [] then '\n' :: indent else []
              .ok ('{' :: (body ++ close ++ ['}']))
    | .vstr s => .ok (quoteStr s)
    | .vint n => .ok (numToChars n)
    | .vfloat n => .ok (numToChars n)
    | .vbool b => .ok (if b then "true".toList else "false".toList)
    | .vnull => .ok ("null".toList)
    | .vundef => .ok []
termination_by (fuel, 0)

/-- The array-element loop: a comma before every element but the first,
then the separator, then the element — `undefined` results encode as
`null`. -/
def js_json_arr (H : Heap) (gap : List Char) (fuel : Nat) (stack : List Nat)
    (indent1 sep : List Char) (elems : List JSVal) (first : Bool) :
    Except JSErr (List Char) :=
  match elems with
  | [] => .ok []
  | e :: es =>
    let v := js_json_check e
    let v := if v = .vundef then .vnull else v
    match js_json_to_str H gap fuel stack indent1 v with
    | .error err => .error err
    | .ok sv =>
      match js_json_arr H gap fuel stack indent1 sep es false with
      | .error err => .error err
      | .ok rest =>
        .ok ((if first then [] else [',']) ++ sep ++ sv ++ rest)
termination_by (fuel, elems.length + 1)

/-- The object-field loop: fields whose checked value is `undefined` are
skipped; a comma separates retained fields; each retained field emits
separator, quoted key, colon, the second separator and the value. -/
def js_json_obj (H : Heap) (gap : List Char) (fuel : Nat) (stack : List Nat)
    (indent1 sep sep1 : List Char) (fields : List (List Char × JSVal))
    (hasContent : Bool) : Except JSErr (List Char × Bool) :=
  match fields with
  | [] => .ok ([], hasContent)
  | (k, e) :: fs =>
    let v := js_json_check e
    if v = .vundef then js_json_obj H gap fuel stack indent1 sep sep1 fs hasContent
    else
      match js_json_to_str H gap fuel stack indent1 v with
      | .error err => .error err
      | .ok sv =>
        match js_json_obj H gap fuel stack indent1 sep sep1 fs true with
        | .error err => .error err
        | .ok (rest, h) =>
          .ok ((if hasContent then [','] else []) ++ sep ++ quoteStr k ++
            [':'] ++ sep1 ++ sv ++ rest, h)
termination_by (fuel, fields.length + 1)
end

/-- `JS_JSONStringify` (without replacer or property list; the gap is
precomputed per C6): check the root value, return `undefined` (here
`none`) when it is filtered out, else serialize with the empty stack and
empty initial indent.  The fuel `H.length + 1` covers any acyclic
ref-chain, every object of which occupies one distinct heap entry. -/
def JS_JSONStringify (H : Heap) (gap : List Char) (v : JSVal) :
    Except JSErr (Option (List Char)) :=
  let v1 := js_json_check v
  if v1 = .vundef then .ok none
  else
    match js_json_to_str H gap (H.length + 1) [] [] v1 with
    | .error e => .error e
    | .ok s => .ok (some s)

/-- The self-referential object `obj = {a: obj}`: heap id 0 holds a plain
object whose field `a` refers back to id 0. -/
def cyclicHeap : Heap := [(0, .obj [(['a'], .vref 0)])]

/-- C4: whenever the object about to be serialized is already a member of
the traversal stack, `js_json_to_str` stops immediately with the TypeError
"circular reference" (the membership test precedes the push and every
recursion into children); consequently `JSON.stringify` of the
self-referential `{a: obj}` fails with that TypeError instead of producing
output or looping. -/
theorem js_json_to_str_circular (H : Heap) (gap : List Char) (fuel : Nat)
    (stack : List Nat) (indent : List Char) (id : Nat) (hmem : id ∈ stack) :
    js_json_to_str H gap (fuel + 1) stack indent (.vref id) =
      .error (.typeError "circular reference") ∧
    JS_JSONStringify cyclicHeap [] (.vref 0) =
      .error (.typeError "circular reference") := by
  constructor
  · rw [js_json_to_str]
    simp only [if_pos hmem]
  · rw [JS_JSONStringify]
    simp [js_json_to_str, js_json_obj, js_json_check, cyclicHeap,
      List.lookup, quoteStr]

/-- Witness for C4: the stack `[5]` already contains the object with id 5. -/
theorem js_json_to_str_circular_witness :
    js_json_to_str [] [] 1 [5] [] (.vref 5) =
      .error (.typeError "circular reference") ∧
    JS_JSONStringify cyclicHeap [] (.vref 0) =
      .error (.typeError "circular reference") :=
  js_json_to_str_circular [] [] 0 [5] [] 5 (by norm_num)

end QuickJS
